import Mathlib

/-!
Shallow embedding of the collaboration core of the repository
(`colab-tool`): the operational-transformation utilities
(`server/src/utils/ot.ts`), the socket presence handlers (`src/socket.ts`)
and the client-side remote-operation application
(`client/src/contexts/EditorContext.tsx`).

Text buffers are modelled as `List Char`; TypeScript `number` fields that
hold positions, lengths and timestamps are modelled as `Int` (they are
integers in every use in this code).  An optional string field (`text?`)
is modelled as a `List Char` where `[]` doubles for `undefined` and `""`:
every use of `text` in the source is behind a JavaScript truthiness test,
for which the two are indistinguishable.  Likewise `length?` is an `Int`
where `0` doubles for `undefined`.
-/

namespace ColabTool

/-- The `type` field of a `TextOperation` (`'insert' | 'delete'`). -/
inductive OpType where
  | insert
  | delete
deriving DecidableEq, Repr

/-- `TextOperation` from `server/src/utils/ot.ts`. -/
structure TextOperation where
  type : OpType
  position : Int
  text : List Char
  length : Int
  userId : String
  documentId : String
  timestamp : Int
  version : Int
deriving DecidableEq, Repr

/-- JavaScript index normalisation used by `String.prototype.slice`:
a negative index counts from the end (clamped below at 0), a
non-negative index is clamped above at the string length. -/
def jsIndex (len : Nat) (i : Int) : Nat :=
  if i < 0 then (max ((len : Int) + i) 0).toNat else min i.toNat len

/-- `s.slice(a, b)` for JavaScript strings. -/
def jsSlice (s : List Char) (a b : Int) : List Char :=
  (s.take (jsIndex s.length b)).drop (jsIndex s.length a)

/-- `s.slice(a)` for JavaScript strings (one-argument form). -/
def jsSliceFrom (s : List Char) (a : Int) : List Char :=
  jsSlice s a (s.length : Int)

/-- `applyInsert` from `server/src/utils/ot.ts`: guard
`operation.type !== 'insert' || !operation.text`, then
`position = Math.min(operation.position, content.length)` and
`content.slice(0, position) + operation.text + content.slice(position)`. -/
def applyInsert (content : List Char) (operation : TextOperation) :
    Except String (List Char) :=
  if operation.type ≠ OpType.insert ∨ operation.text = [] then
    Except.error "Invalid insert operation"
  else
    let position := min operation.position (content.length : Int)
    Except.ok (jsSlice content 0 position ++ operation.text ++
      jsSliceFrom content position)

/-- `applyDelete` from `server/src/utils/ot.ts`: guard
`operation.type !== 'delete' || !operation.length`, then
`position = Math.min(operation.position, content.length)`,
`length = Math.min(operation.length, content.length - position)` and
`content.slice(0, position) + content.slice(position + length)`. -/
def applyDelete (content : List Char) (operation : TextOperation) :
    Except String (List Char) :=
  if operation.type ≠ OpType.delete ∨ operation.length = 0 then
    Except.error "Invalid delete operation"
  else
    let position := min operation.position (content.length : Int)
    let length := min operation.length ((content.length : Int) - position)
    Except.ok (jsSlice content 0 position ++
      jsSliceFrom content (position + length))

/-- `applyOperation` from `server/src/utils/ot.ts`: dispatch on
`operation.type`.  The TypeScript `default` branch is unreachable for the
two-constructor union type. -/
def applyOperation (content : List Char) (operation : TextOperation) :
    Except String (List Char) :=
  match operation.type with
  | OpType.insert => applyInsert content operation
  | OpType.delete => applyDelete content operation

/-- `transformOperation` from `server/src/utils/ot.ts`, a literal
translation of the nested conditionals (JavaScript truthiness of
`against.text` is `against.text ≠ []`, of `against.length` is
`against.length ≠ 0`). -/
def transformOperation (operation against : TextOperation) : TextOperation :=
  if operation.userId = against.userId ∨
      operation.documentId ≠ against.documentId then
    operation
  else if operation.timestamp > against.timestamp then
    if against.type = OpType.insert ∧ against.text ≠ [] then
      if against.position ≤ operation.position then
        { operation with
            position := operation.position + (against.text.length : Int) }
      else
        operation
    else if against.type = OpType.delete ∧ against.length ≠ 0 then
      if against.position < operation.position then
        { operation with
            position := operation.position -
              (against.length -
                max 0 (against.position + against.length - operation.position)) }
      else
        operation
    else
      operation
  else
    operation

/-! ### Presence registry (`src/socket.ts`)

`activeDocuments : Record<string, Set<string>>` is modelled as an
association list with (by construction of `Record`) unique keys; a
JavaScript `Set` is modelled as a duplicate-free list in insertion
order (`add` appends when absent, `delete` removes). -/

/-- The in-memory presence map `activeDocuments`. -/
abbrev Registry := List (String × List String)

/-- `activeDocuments[documentId]` lookup (first matching key). -/
def getDoc : Registry → String → Option (List String)
  | [], _ => none
  | (d, s) :: rest, doc => if d = doc then some s else getDoc rest doc

/-- JavaScript `Set.prototype.add`: append when absent. -/
def setAdd (s : List String) (u : String) : List String :=
  if u ∈ s then s else s ++ [u]

/-- Overwrite the value stored under key `doc`. -/
def setEntry : Registry → String → List String → Registry
  | [], _, _ => []
  | (d, v) :: rest, doc, s =>
    (if d = doc then (doc, s) else (d, v)) :: setEntry rest doc s

/-- `delete activeDocuments[documentId]`. -/
def removeEntry (reg : Registry) (doc : String) : Registry :=
  reg.filter fun p => p.1 ≠ doc

/-- The `join-document` handler's effect on `activeDocuments`:
create the set when absent, then `add(userId)`. -/
def joinDoc (reg : Registry) (doc user : String) : Registry :=
  match getDoc reg doc with
  | none => reg ++ [(doc, [user])]
  | some s => setEntry reg doc (setAdd s user)

/-- `handleUserLeaveDocument`'s effect on `activeDocuments`: when the key
is present, `delete(userId)` from the set and drop the key when the set
becomes empty; otherwise nothing. -/
def leaveDoc (reg : Registry) (doc user : String) : Registry :=
  match getDoc reg doc with
  | none => reg
  | some s =>
    let s2 := s.erase user
    if s2.isEmpty then removeEntry reg doc else setEntry reg doc s2

/-- The socket events handled by `setupSocketHandlers`. -/
inductive GatewayEvent where
  | joinDocument (documentId userId : String)
  | documentOperation (operation : TextOperation)
  | cursorPosition (documentId userId : String) (position : Int)
  | leaveDocument (documentId userId : String)
  | disconnect
deriving Repr

/-- Effect of each handler in `setupSocketHandlers` on `activeDocuments`.
The `document-operation` and `cursor-position` handlers only relay and
never touch the map; the `disconnect` handler's body is a log statement
and a comment (no cleanup is performed). -/
def gatewayStep (reg : Registry) : GatewayEvent → Registry
  | GatewayEvent.joinDocument d u => joinDoc reg d u
  | GatewayEvent.documentOperation _ => reg
  | GatewayEvent.cursorPosition _ _ _ => reg
  | GatewayEvent.leaveDocument d u => leaveDoc reg d u
  | GatewayEvent.disconnect => reg

/-- Fold a sequence of joins to the same document. -/
def joinAll (reg : Registry) (doc : String) (users : List String) : Registry :=
  users.foldl (fun r u => joinDoc r doc u) reg

/-- The current member list of a document ([] when untracked). -/
def membersList (reg : Registry) (doc : String) : List String :=
  (getDoc reg doc).getD []

/-- Well-formedness of a registry state: it denotes a JavaScript
`Record` (keys unique) and every stored set is non-empty (the invariant
of the presence map). -/
def RegistryWF (reg : Registry) : Prop :=
  (reg.map Prod.fst).Nodup ∧ ∀ p ∈ reg, p.2 ≠ []

instance (reg : Registry) : Decidable (RegistryWF reg) := by
  unfold RegistryWF
  infer_instance

/-! ### Client session store (`client/src/contexts/EditorContext.tsx`)

`applyOperation` there operates on a draft-js `EditorState`; we model
the editor state by its serialised raw content (the very string carried
in `operation.text`), under which
`EditorState.createWithContent (convertFromRaw (JSON.parse text))`
amounts to replacing the buffer by `text`. -/

/-- The client-side `applyOperation` from `EditorContext.tsx`: skip the
local user's own operations; for an insert with non-empty text replace
the whole content; anything else (delete operations, empty inserts) is
ignored. -/
def clientApplyOperation (user : Option String) (buffer : List Char)
    (operation : TextOperation) : List Char :=
  if user = some operation.userId then
    buffer
  else if operation.type = OpType.insert ∧ operation.text ≠ [] then
    operation.text
  else
    buffer

/-! ### Concrete operations used in the spec's worked examples -/

/-- `applied = {Insert, pos=5, text="abc"}` from the spec's insert example. -/
def exApplied1 : TextOperation :=
  ⟨OpType.insert, 5, "abc".toList, 0, "A", "D", 1, 0⟩

/-- `pending = {pos=5}` (different user, later timestamp). -/
def exPending1 : TextOperation :=
  ⟨OpType.insert, 5, "x".toList, 0, "B", "D", 2, 0⟩

/-- `applied = {Delete, pos=2, length=5}` from the spec's delete example. -/
def exAppliedDel : TextOperation :=
  ⟨OpType.delete, 2, [], 5, "A", "D", 1, 0⟩

/-- `pending = {pos=10}` (different user, later timestamp). -/
def exPending10 : TextOperation :=
  ⟨OpType.insert, 10, "x".toList, 0, "B", "D", 2, 0⟩

/-- `pending = {pos=4}` (inside the deleted span). -/
def exPending4 : TextOperation :=
  ⟨OpType.insert, 4, "x".toList, 0, "B", "D", 2, 0⟩

/-- `{position:10, text:"!"}` insert used in the `applyInsert` example. -/
def opIns10 : TextOperation :=
  ⟨OpType.insert, 10, "!".toList, 0, "A", "D", 1, 0⟩

/-- `{position:2, length:100}` delete used in the `applyDelete` example. -/
def opDel2_100 : TextOperation :=
  ⟨OpType.delete, 2, [], 100, "A", "D", 1, 0⟩

/-- A delete operation with a negative length (passes the JavaScript
truthiness guard `!operation.length`). -/
def opDelNeg : TextOperation :=
  ⟨OpType.delete, 0, [], -2, "A", "D", 1, 0⟩

/-- A remote delete operation from another user, used against the client
session store. -/
def delOpRemote : TextOperation :=
  ⟨OpType.delete, 0, [], 2, "other", "doc1", 5, 0⟩

/-! ### Spec-side descriptions of the Edit Applier (for refinement)

These three definitions follow the spec's words in §4.4 (clamp the
position into `[0, len]`, splice text in, remove a span); the theorems
below compare them with the source-derived `applyInsert`/`applyDelete`. -/

/-- Modelled from the spec's words: clamp an integer position into the
range `[0, len]`. -/
def specClampPos (p : Int) (len : Nat) : Nat :=
  (max 0 (min p (len : Int))).toNat

/-- Modelled from the spec's words: the buffer with `text` spliced in at
offset `k`. -/
def specSplice (buffer : List Char) (k : Nat) (text : List Char) :
    List Char :=
  buffer.take k ++ text ++ buffer.drop k

/-- Modelled from the spec's words: the buffer with the span
`[k, k + l)` removed. -/
def specRemoveSpan (buffer : List Char) (k l : Nat) : List Char :=
  buffer.take k ++ buffer.drop (k + l)

/-! ### Lemmas about JavaScript slicing at in-range indices -/

theorem jsIndex_of_nonneg (len : Nat) (p : Int) (h0 : 0 ≤ p) :
    jsIndex len p = min p.toNat len := by
  simp [jsIndex, not_lt.mpr h0]

theorem jsSlice_zero_left (s : List Char) (p : Int) (h0 : 0 ≤ p)
    (hle : p ≤ (s.length : Int)) :
    jsSlice s 0 p = s.take p.toNat := by
  have h1 : jsIndex s.length 0 = 0 := by simp [jsIndex]
  have h2 : jsIndex s.length p = p.toNat := by
    rw [jsIndex_of_nonneg _ _ h0]
    omega
  simp [jsSlice, h1, h2]

theorem jsSliceFrom_eq_drop (s : List Char) (p : Int) (h0 : 0 ≤ p)
    (hle : p ≤ (s.length : Int)) :
    jsSliceFrom s p = s.drop p.toNat := by
  have h2 : jsIndex s.length p = p.toNat := by
    rw [jsIndex_of_nonneg _ _ h0]
    omega
  have h3 : jsIndex s.length (s.length : Int) = s.length := by
    rw [jsIndex_of_nonneg _ _ (by omega)]
    omega
  simp [jsSliceFrom, jsSlice, h2, h3]

/-! ### Edit Applier theorems -/

/-- C4: `applyInsert` fails with the invalid-operation error exactly when
the operation is not an Insert or its text is empty; otherwise (for the
non-negative positions of the spec's data model) it splices the text in
at the position clamped to `[0, len(buffer)]`.  The spec's worked example
`applyInsert("hello", {position:10, text:"!"}) = "hello!"` holds. -/
theorem applyInsert_spec (content : List Char) (operation : TextOperation) :
    ((operation.type ≠ OpType.insert ∨ operation.text = []) →
      applyInsert content operation =
        Except.error "Invalid insert operation") ∧
    (operation.type = OpType.insert → operation.text ≠ [] →
      0 ≤ operation.position →
      applyInsert content operation =
        Except.ok (specSplice content
          (specClampPos operation.position content.length)
          operation.text)) ∧
    applyInsert "hello".toList opIns10 = Except.ok "hello!".toList := by
  refine ⟨?_, ?_, by rfl⟩
  · intro h
    simp only [applyInsert]
    rw [if_pos h]
  · intro hk htext hpos
    simp only [applyInsert]
    rw [if_neg (show ¬ (operation.type ≠ OpType.insert ∨ operation.text = [])
      by push_neg; exact ⟨by simp [hk], htext⟩)]
    show Except.ok
        (jsSlice content 0 (min operation.position (content.length : Int)) ++
          operation.text ++
          jsSliceFrom content (min operation.position (content.length : Int)))
      = _
    have h0 : (0 : Int) ≤ min operation.position (content.length : Int) := by
      omega
    have hle : min operation.position (content.length : Int) ≤
        (content.length : Int) := by
      omega
    rw [jsSlice_zero_left _ _ h0 hle, jsSliceFrom_eq_drop _ _ h0 hle]
    unfold specSplice specClampPos
    have hkey : (max 0 (min operation.position ((content.length : Int)))).toNat
        = (min operation.position ((content.length : Int))).toNat := by
      omega
    rw [hkey]

/-- C5 (counterexample): the claim says `applyDelete` fails whenever the
length is not positive, but the source guard `!operation.length` only
rejects length 0: at length `-2` on `"hello"` the call succeeds and even
returns `"lo"`. -/
theorem applyDelete_negative_length_accepted :
    opDelNeg.type = OpType.delete ∧ opDelNeg.length < 0 ∧
    applyDelete "hello".toList opDelNeg = Except.ok "lo".toList :=
  ⟨rfl, by decide, by rfl⟩

/-- C5 (amended): `applyDelete` fails with the invalid-operation error
exactly when the operation is not a Delete or its length is zero (not:
"not positive"); for a positive length (and the non-negative positions of
the spec's data model) it clamps the position to `[0, len(buffer)]`,
clamps the length to at most `len(buffer) - position`, and removes that
span.  The spec's worked example
`applyDelete("hello", {position:2, length:100}) = "he"` holds. -/
theorem applyDelete_spec_amended (content : List Char)
    (operation : TextOperation) :
    ((operation.type ≠ OpType.delete ∨ operation.length = 0) →
      applyDelete content operation =
        Except.error "Invalid delete operation") ∧
    (operation.type = OpType.delete → 0 < operation.length →
      0 ≤ operation.position →
      applyDelete content operation =
        Except.ok (specRemoveSpan content
          (specClampPos operation.position content.length)
          (min operation.length.toNat
            (content.length -
              specClampPos operation.position content.length)))) ∧
    applyDelete "hello".toList opDel2_100 = Except.ok "he".toList := by
  refine ⟨?_, ?_, by rfl⟩
  · intro h
    simp only [applyDelete]
    rw [if_pos h]
  · intro hk hlen hpos
    simp only [applyDelete]
    rw [if_neg (show ¬ (operation.type ≠ OpType.delete ∨ operation.length = 0)
      by push_neg; exact ⟨by simp [hk], by omega⟩)]
    show Except.ok
        (jsSlice content 0 (min operation.position (content.length : Int)) ++
          jsSliceFrom content (min operation.position (content.length : Int) +
            min operation.length ((content.length : Int) -
              min operation.position (content.length : Int))))
      = _
    have h0 : (0 : Int) ≤ min operation.position (content.length : Int) := by
      omega
    have hle : min operation.position (content.length : Int) ≤
        (content.length : Int) := by
      omega
    have h0s : (0 : Int) ≤ min operation.position (content.length : Int) +
        min operation.length ((content.length : Int) -
          min operation.position (content.length : Int)) := by
      omega
    have hles : min operation.position (content.length : Int) +
        min operation.length ((content.length : Int) -
          min operation.position (content.length : Int)) ≤
        (content.length : Int) := by
      omega
    rw [jsSlice_zero_left _ _ h0 hle, jsSliceFrom_eq_drop _ _ h0s hles]
    unfold specRemoveSpan specClampPos
    have hkey : (max 0 (min operation.position ((content.length : Int)))).toNat
        = (min operation.position ((content.length : Int))).toNat := by
      omega
    rw [hkey]
    have hsum : (min operation.position (content.length : Int) +
        min operation.length ((content.length : Int) -
          min operation.position (content.length : Int))).toNat
        = (min operation.position ((content.length : Int))).toNat +
          min operation.length.toNat
            (content.length -
              (min operation.position ((content.length : Int))).toNat) := by
      omega
    rw [hsum]

/-- Witness for C4: both the error case (a delete handed to
`applyInsert`) and the splice case at the worked example. -/
theorem applyInsert_spec_witness :
    applyInsert "hello".toList opDel2_100 =
      Except.error "Invalid insert operation" ∧
    applyInsert "hello".toList opIns10 =
      Except.ok (specSplice "hello".toList
        (specClampPos opIns10.position ("hello".toList).length)
        opIns10.text) :=
  ⟨(applyInsert_spec "hello".toList opDel2_100).1 (Or.inl (by decide)),
    (applyInsert_spec "hello".toList opIns10).2.1 rfl (by decide) (by decide)⟩

/-- Witness for C5's amended claim: both the error case (an insert handed
to `applyDelete`) and the span-removal case at the worked example. -/
theorem applyDelete_spec_amended_witness :
    applyDelete "hello".toList opIns10 =
      Except.error "Invalid delete operation" ∧
    applyDelete "hello".toList opDel2_100 =
      Except.ok (specRemoveSpan "hello".toList
        (specClampPos opDel2_100.position ("hello".toList).length)
        (min opDel2_100.length.toNat
          (("hello".toList).length -
            specClampPos opDel2_100.position ("hello".toList).length))) :=
  ⟨(applyDelete_spec_amended "hello".toList opIns10).1 (Or.inl (by decide)),
    (applyDelete_spec_amended "hello".toList opDel2_100).2.1 rfl (by decide)
      (by decide)⟩

/-! ### Transform Function theorems -/

/-- C1: for operations with different users, the same document and
`pending` strictly later, transforming against an applied Insert shifts
`pending.position` forward by the inserted text's length when
`applied.position ≤ pending.position` and leaves `pending` unchanged when
`applied.position > pending.position`; in particular the spec's worked
example transforms position 5 to 8. -/
theorem transform_against_insert (pending applied : TextOperation)
    (hu : pending.userId ≠ applied.userId)
    (hd : pending.documentId = applied.documentId)
    (ht : applied.timestamp < pending.timestamp)
    (hk : applied.type = OpType.insert) :
    (applied.position ≤ pending.position →
      transformOperation pending applied =
        { pending with
            position := pending.position + (applied.text.length : Int) }) ∧
    (pending.position < applied.position →
      transformOperation pending applied = pending) ∧
    (transformOperation exPending1 exApplied1).position = 8 := by
  have h1 : ¬ (pending.userId = applied.userId ∨
      pending.documentId ≠ applied.documentId) := by
    push_neg
    exact ⟨hu, hd⟩
  refine ⟨?_, ?_, by rfl⟩
  · intro hpos
    by_cases htext : applied.text = []
    · simp only [transformOperation]
      rw [if_neg h1,
        if_pos (show pending.timestamp > applied.timestamp from ht),
        if_neg (show ¬ (applied.type = OpType.insert ∧ applied.text ≠ [])
          by simp [htext]),
        if_neg (show ¬ (applied.type = OpType.delete ∧ applied.length ≠ 0)
          by simp [hk])]
      simp [htext]
    · simp only [transformOperation]
      rw [if_neg h1,
        if_pos (show pending.timestamp > applied.timestamp from ht),
        if_pos (show applied.type = OpType.insert ∧ applied.text ≠ []
          from ⟨hk, htext⟩),
        if_pos hpos]
  · intro hpos
    by_cases htext : applied.text = []
    · simp only [transformOperation]
      rw [if_neg h1,
        if_pos (show pending.timestamp > applied.timestamp from ht),
        if_neg (show ¬ (applied.type = OpType.insert ∧ applied.text ≠ [])
          by simp [htext]),
        if_neg (show ¬ (applied.type = OpType.delete ∧ applied.length ≠ 0)
          by simp [hk])]
    · simp only [transformOperation]
      rw [if_neg h1,
        if_pos (show pending.timestamp > applied.timestamp from ht),
        if_pos (show applied.type = OpType.insert ∧ applied.text ≠ []
          from ⟨hk, htext⟩),
        if_neg (not_le.mpr hpos)]

/-- Witness for C1 at the spec's worked example. -/
theorem transform_against_insert_witness :
    transformOperation exPending1 exApplied1 =
      { exPending1 with
          position := exPending1.position + (exApplied1.text.length : Int) } :=
  (transform_against_insert exPending1 exApplied1 (by decide) (by decide)
    (by decide) (by decide)).1 (by decide)

/-- C2: for operations with different users, the same document and
`pending` strictly later, transforming against an applied Delete shifts
`pending.position` backward by `applied.length - overlap` (with
`overlap = max 0 (applied.position + applied.length - pending.position)`)
when `applied.position < pending.position`, and leaves `pending`
unchanged when `applied.position ≥ pending.position`; in particular the
spec's worked examples transform position 10 to 5 and position 4 to 2. -/
theorem transform_against_delete (pending applied : TextOperation)
    (hu : pending.userId ≠ applied.userId)
    (hd : pending.documentId = applied.documentId)
    (ht : applied.timestamp < pending.timestamp)
    (hk : applied.type = OpType.delete) :
    (applied.position < pending.position →
      transformOperation pending applied =
        { pending with
            position := pending.position -
              (applied.length -
                max 0 (applied.position + applied.length - pending.position)) }) ∧
    (pending.position ≤ applied.position →
      transformOperation pending applied = pending) ∧
    (transformOperation exPending10 exAppliedDel).position = 5 ∧
    (transformOperation exPending4 exAppliedDel).position = 2 := by
  have h1 : ¬ (pending.userId = applied.userId ∨
      pending.documentId ≠ applied.documentId) := by
    push_neg
    exact ⟨hu, hd⟩
  have hins : ¬ (applied.type = OpType.insert ∧ applied.text ≠ []) := by
    simp [hk]
  refine ⟨?_, ?_, by rfl, by rfl⟩
  · intro hpos
    by_cases hlen : applied.length = 0
    · simp only [transformOperation]
      rw [if_neg h1,
        if_pos (show pending.timestamp > applied.timestamp from ht),
        if_neg hins,
        if_neg (show ¬ (applied.type = OpType.delete ∧ applied.length ≠ 0)
          by simp [hlen])]
      have hmax : max 0 (applied.position + applied.length - pending.position)
          = 0 := by
        rw [hlen]
        omega
      rw [hmax, hlen]
      simp
    · simp only [transformOperation]
      rw [if_neg h1,
        if_pos (show pending.timestamp > applied.timestamp from ht),
        if_neg hins,
        if_pos (show applied.type = OpType.delete ∧ applied.length ≠ 0
          from ⟨hk, hlen⟩),
        if_pos hpos]
  · intro hpos
    by_cases hlen : applied.length = 0
    · simp only [transformOperation]
      rw [if_neg h1,
        if_pos (show pending.timestamp > applied.timestamp from ht),
        if_neg hins,
        if_neg (show ¬ (applied.type = OpType.delete ∧ applied.length ≠ 0)
          by simp [hlen])]
    · simp only [transformOperation]
      rw [if_neg h1,
        if_pos (show pending.timestamp > applied.timestamp from ht),
        if_neg hins,
        if_pos (show applied.type = OpType.delete ∧ applied.length ≠ 0
          from ⟨hk, hlen⟩),
        if_neg (not_lt.mpr hpos)]

/-- Witness for C2 at the spec's worked example. -/
theorem transform_against_delete_witness :
    transformOperation exPending10 exAppliedDel =
      { exPending10 with
          position := exPending10.position -
            (exAppliedDel.length -
              max 0 (exAppliedDel.position + exAppliedDel.length -
                exPending10.position)) } :=
  (transform_against_delete exPending10 exAppliedDel (by decide) (by decide)
    (by decide) (by decide)).1 (by decide)

/-- C3: `transformOperation` is the identity whenever the two operations
share an author, target different documents, or `applied` is not
strictly earlier than `pending`. -/
theorem transform_identity_cases (pending applied : TextOperation)
    (h : pending.userId = applied.userId ∨
      pending.documentId ≠ applied.documentId ∨
      pending.timestamp ≤ applied.timestamp) :
    transformOperation pending applied = pending := by
  by_cases h1 : pending.userId = applied.userId ∨
      pending.documentId ≠ applied.documentId
  · simp only [transformOperation]
    rw [if_pos h1]
  · have h2 : ¬ pending.timestamp > applied.timestamp := by
      rcases h with h | h | h
      · exact absurd (Or.inl h) h1
      · exact absurd (Or.inr h) h1
      · omega
    simp only [transformOperation]
    rw [if_neg h1, if_neg h2]

/-- Witness for C3: an operation is never transformed against one of the
same author. -/
theorem transform_identity_cases_witness :
    transformOperation exPending1
      { exApplied1 with userId := "B" } = exPending1 :=
  transform_identity_cases exPending1 { exApplied1 with userId := "B" }
    (Or.inl (by decide))

/-- C10: `transformOperation` agrees with `pending` on every field other
than `position`: type, text, length, userId, documentId, timestamp and
version are always preserved. -/
theorem transform_preserves_frame (operation against : TextOperation) :
    (transformOperation operation against).type = operation.type ∧
    (transformOperation operation against).text = operation.text ∧
    (transformOperation operation against).length = operation.length ∧
    (transformOperation operation against).userId = operation.userId ∧
    (transformOperation operation against).documentId = operation.documentId ∧
    (transformOperation operation against).timestamp = operation.timestamp ∧
    (transformOperation operation against).version = operation.version := by
  unfold transformOperation
  split_ifs <;> simp

/-! ### Presence Registry lemmas -/

theorem getDoc_eq_none (reg : Registry) (doc : String) :
    getDoc reg doc = none ↔ ∀ p ∈ reg, p.1 ≠ doc := by
  induction reg with
  | nil => simp [getDoc]
  | cons hd tl ih =>
    obtain ⟨d, s⟩ := hd
    by_cases h : d = doc
    · subst h
      simp [getDoc]
    · simp [getDoc, h, ih]

theorem getDoc_mem (reg : Registry) (doc : String) (s : List String) :
    getDoc reg doc = some s → (doc, s) ∈ reg := by
  induction reg with
  | nil => intro h; simp [getDoc] at h
  | cons hd tl ih =>
    intro h
    obtain ⟨d, t⟩ := hd
    by_cases hd2 : d = doc
    · subst hd2
      simp [getDoc] at h
      subst h
      exact List.mem_cons_self _ _
    · simp [getDoc, hd2] at h
      exact List.mem_cons_of_mem _ (ih h)

theorem getDoc_append_of_none (l1 l2 : Registry) (doc : String) :
    getDoc l1 doc = none → getDoc (l1 ++ l2) doc = getDoc l2 doc := by
  induction l1 with
  | nil => intro _; rfl
  | cons hd tl ih =>
    intro h
    obtain ⟨d, s⟩ := hd
    by_cases hd2 : d = doc
    · simp [getDoc, hd2] at h
    · simp only [List.cons_append, getDoc] at h ⊢
      rw [if_neg hd2] at h ⊢
      exact ih h

theorem setAdd_ne_nil (s : List String) (u : String) : setAdd s u ≠ [] := by
  unfold setAdd
  split_ifs with h
  · intro he
    rw [he] at h
    simp at h
  · simp

theorem mem_setAdd_self (s : List String) (u : String) : u ∈ setAdd s u := by
  unfold setAdd
  split_ifs with h
  · exact h
  · simp

theorem setAdd_of_mem (s : List String) (u : String) (h : u ∈ s) :
    setAdd s u = s := by
  simp [setAdd, h]

theorem getDoc_cons_self (d : String) (s : List String) (tl : Registry) :
    getDoc ((d, s) :: tl) d = some s := by
  simp [getDoc]

theorem getDoc_cons_ne (d doc : String) (s : List String) (tl : Registry)
    (h : d ≠ doc) : getDoc ((d, s) :: tl) doc = getDoc tl doc := by
  simp [getDoc, h]

theorem setEntry_cons_self (d : String) (v s : List String) (tl : Registry) :
    setEntry ((d, v) :: tl) d s = (d, s) :: setEntry tl d s := by
  simp [setEntry]

theorem setEntry_cons_ne (d doc : String) (v s : List String) (tl : Registry)
    (h : d ≠ doc) :
    setEntry ((d, v) :: tl) doc s = (d, v) :: setEntry tl doc s := by
  simp [setEntry, h]

theorem setEntry_of_forall_ne (reg : Registry) (doc : String)
    (s : List String) :
    (∀ p ∈ reg, p.1 ≠ doc) → setEntry reg doc s = reg := by
  induction reg with
  | nil => intro _; rfl
  | cons hd tl ih =>
    intro h
    obtain ⟨d, v⟩ := hd
    have h1 : d ≠ doc := h (d, v) (List.mem_cons_self _ _)
    rw [setEntry_cons_ne d doc v s tl h1]
    congr 1
    exact ih fun p hp => h p (List.mem_cons_of_mem _ hp)

theorem setEntry_append (l1 l2 : Registry) (doc : String) (s : List String) :
    setEntry (l1 ++ l2) doc s = setEntry l1 doc s ++ setEntry l2 doc s := by
  induction l1 with
  | nil => rfl
  | cons hd tl ih =>
    obtain ⟨d, v⟩ := hd
    simp only [List.cons_append, setEntry]
    congr 1

theorem getDoc_setEntry (reg : Registry) (doc : String) (t s : List String) :
    getDoc reg doc = some t → getDoc (setEntry reg doc s) doc = some s := by
  induction reg with
  | nil => intro h; simp [getDoc] at h
  | cons hd tl ih =>
    intro h
    obtain ⟨d, v⟩ := hd
    by_cases hd2 : d = doc
    · subst hd2
      rw [setEntry_cons_self, getDoc_cons_self]
    · rw [getDoc_cons_ne d doc v tl hd2] at h
      rw [setEntry_cons_ne d doc v s tl hd2, getDoc_cons_ne d doc v
        (setEntry tl doc s) hd2]
      exact ih h

theorem setEntry_setEntry (reg : Registry) (doc : String)
    (a b : List String) :
    setEntry (setEntry reg doc a) doc b = setEntry reg doc b := by
  induction reg with
  | nil => rfl
  | cons hd tl ih =>
    obtain ⟨d, v⟩ := hd
    by_cases h : d = doc
    · subst h
      rw [setEntry_cons_self d v a tl,
        setEntry_cons_self d a b (setEntry tl d a),
        setEntry_cons_self d v b tl, ih]
    · rw [setEntry_cons_ne d doc v a tl h,
        setEntry_cons_ne d doc v b (setEntry tl doc a) h,
        setEntry_cons_ne d doc v b tl h, ih]

theorem keys_setEntry (reg : Registry) (doc : String) (s : List String) :
    (setEntry reg doc s).map Prod.fst = reg.map Prod.fst := by
  induction reg with
  | nil => rfl
  | cons hd tl ih =>
    obtain ⟨d, v⟩ := hd
    by_cases h : d = doc
    · subst h
      rw [setEntry_cons_self d v s tl]
      simp [List.map_cons, ih]
    · rw [setEntry_cons_ne d doc v s tl h]
      simp [List.map_cons, ih]

theorem getDoc_removeEntry (reg : Registry) (doc : String) :
    getDoc (removeEntry reg doc) doc = none := by
  rw [getDoc_eq_none]
  intro p hp
  have h := List.mem_filter.mp hp
  simpa using h.2

theorem setEntry_getDoc_self (reg : Registry) (doc : String)
    (s : List String) :
    (reg.map Prod.fst).Nodup → getDoc reg doc = some s →
    setEntry reg doc s = reg := by
  induction reg with
  | nil => intro _ h; simp [getDoc] at h
  | cons hd tl ih =>
    intro hnd h
    obtain ⟨d, v⟩ := hd
    simp only [List.map_cons, List.nodup_cons] at hnd
    by_cases hd2 : d = doc
    · subst hd2
      have hv : v = s := by
        rw [getDoc_cons_self] at h
        exact Option.some.inj h
      subst hv
      rw [setEntry_cons_self]
      congr 1
      exact setEntry_of_forall_ne tl _ _ fun p hp heq =>
        hnd.1 (heq ▸ List.mem_map_of_mem Prod.fst hp)
    · rw [getDoc_cons_ne d doc v tl hd2] at h
      rw [setEntry_cons_ne d doc v s tl hd2]
      congr 1
      exact ih hnd.2 h

theorem getDoc_joinDoc_of_none (reg : Registry) (d u : String) :
    getDoc reg d = none → getDoc (joinDoc reg d u) d = some [u] := by
  intro h
  simp only [joinDoc, h]
  rw [getDoc_append_of_none reg [(d, [u])] d h]
  simp [getDoc]

theorem foldl_setAdd_length (us : List String) :
    ∀ s : List String, us.Nodup → (∀ u ∈ us, u ∉ s) →
      (us.foldl setAdd s).length = s.length + us.length := by
  induction us with
  | nil => intro s _ _; simp
  | cons u tl ih =>
    intro s hnd hdisj
    simp only [List.foldl_cons]
    have hu : u ∉ s := hdisj u (List.mem_cons_self _ _)
    have h1 : setAdd s u = s ++ [u] := by simp [setAdd, hu]
    rw [h1]
    have hnd2 : tl.Nodup := (List.nodup_cons.mp hnd).2
    have hdisj2 : ∀ v ∈ tl, v ∉ s ++ [u] := by
      intro v hv
      simp only [List.mem_append, List.mem_singleton]
      push_neg
      exact ⟨hdisj v (List.mem_cons_of_mem _ hv),
        fun he => (List.nodup_cons.mp hnd).1 (he ▸ hv)⟩
    rw [ih (s ++ [u]) hnd2 hdisj2]
    simp only [List.length_append, List.length_cons, List.length_nil]
    omega

theorem getDoc_joinAll (us : List String) :
    ∀ (reg : Registry) (d : String) (s : List String),
      getDoc reg d = some s →
      getDoc (joinAll reg d us) d = some (us.foldl setAdd s) := by
  induction us with
  | nil => intro reg d s h; simpa [joinAll] using h
  | cons u tl ih =>
    intro reg d s h
    simp only [joinAll, List.foldl_cons]
    have h2 : getDoc (joinDoc reg d u) d = some (setAdd s u) := by
      simp only [joinDoc, h]
      exact getDoc_setEntry reg d s (setAdd s u) h
    exact ih (joinDoc reg d u) d (setAdd s u) h2

/-! ### Presence Registry theorems -/

/-- C6: the presence registry has per-document set semantics with key
garbage-collection: join is idempotent; after a sequence of joins by
distinct users (in any order) the member set of the document has exactly
that many members; and joining then leaving with the same user, starting
from a registry not tracking the document, leaves the registry without
that document's key. -/
theorem presence_set_semantics :
    (∀ (reg : Registry) (d u : String),
      joinDoc (joinDoc reg d u) d u = joinDoc reg d u) ∧
    (∀ (d : String) (us vs : List String), us.Nodup → us.Perm vs →
      (membersList (joinAll [] d vs) d).length = us.length) ∧
    (∀ (reg : Registry) (d u : String), getDoc reg d = none →
      getDoc (leaveDoc (joinDoc reg d u) d u) d = none) := by
  refine ⟨?_, ?_, ?_⟩
  · intro reg d u
    cases h : getDoc reg d with
    | none =>
      have hkeys := (getDoc_eq_none reg d).mp h
      have hget : getDoc (joinDoc reg d u) d = some [u] :=
        getDoc_joinDoc_of_none reg d u h
      conv_lhs => rw [joinDoc, hget]
      simp only [joinDoc, h]
      have hAdd : setAdd [u] u = [u] := by simp [setAdd]
      rw [hAdd, setEntry_append, setEntry_of_forall_ne reg d [u] hkeys]
      simp [setEntry]
    | some s =>
      have hget : getDoc (joinDoc reg d u) d = some (setAdd s u) := by
        simp only [joinDoc, h]
        exact getDoc_setEntry reg d s (setAdd s u) h
      conv_lhs => rw [joinDoc, hget]
      simp only [joinDoc, h]
      rw [setAdd_of_mem _ _ (mem_setAdd_self s u)]
      exact setEntry_setEntry reg d (setAdd s u) (setAdd s u)
  · intro d us vs hnd hperm
    cases vs with
    | nil =>
      have : us = [] := hperm.eq_nil
      subst this
      simp [joinAll, membersList, getDoc]
    | cons v tl =>
      have hvnd : (v :: tl).Nodup := hperm.nodup_iff.mp hnd
      have hget : getDoc (joinAll [] d (v :: tl)) d
          = some (tl.foldl setAdd [v]) := by
        simp only [joinAll, List.foldl_cons]
        exact getDoc_joinAll tl (joinDoc [] d v) d [v]
          (getDoc_joinDoc_of_none [] d v rfl)
      have hdisj : ∀ u ∈ tl, u ∉ ([v] : List String) := by
        intro u hu
        simp only [List.mem_singleton]
        intro he
        exact (List.nodup_cons.mp hvnd).1 (he ▸ hu)
      have hlen := foldl_setAdd_length tl [v]
        (List.nodup_cons.mp hvnd).2 hdisj
      have hlen2 := hperm.length_eq
      simp only [membersList, hget, Option.getD_some]
      rw [hlen]
      simp only [List.length_cons, List.length_nil] at hlen2 ⊢
      omega
  · intro reg d u h
    have hget : getDoc (joinDoc reg d u) d = some [u] :=
      getDoc_joinDoc_of_none reg d u h
    simp only [leaveDoc, hget, List.erase_cons_head, List.isEmpty_nil,
      if_true]
    exact getDoc_removeEntry _ d

/-- Witness for C6: join twice, a two-user join sequence in swapped
order, and join-then-leave, all on concrete registries. -/
theorem presence_set_semantics_witness :
    joinDoc (joinDoc [] "D" "A") "D" "A" = joinDoc [] "D" "A" ∧
    (membersList (joinAll [] "D" ["B", "A"]) "D").length = 2 ∧
    getDoc (leaveDoc (joinDoc [] "D" "A") "D" "A") "D" = none :=
  ⟨presence_set_semantics.1 [] "D" "A",
    by
      have h := presence_set_semantics.2.1 "D" ["A", "B"] ["B", "A"]
        (by decide) (List.Perm.swap "B" "A" [])
      simpa using h,
    presence_set_semantics.2.2 [] "D" "A" rfl⟩


theorem forall_mem_setEntry (reg : Registry) (doc : String)
    (s : List String) (P : String × List String → Prop) :
    (∀ p ∈ reg, P p) → P (doc, s) → ∀ p ∈ setEntry reg doc s, P p := by
  induction reg with
  | nil => intro _ _ p hp; simp [setEntry] at hp
  | cons hd tl ih =>
    intro h1 h2 p hp
    obtain ⟨d, v⟩ := hd
    by_cases hd2 : d = doc
    · subst hd2
      rw [setEntry_cons_self] at hp
      rcases List.mem_cons.mp hp with h3 | h3
      · subst h3
        exact h2
      · exact ih (fun q hq => h1 q (List.mem_cons_of_mem _ hq)) h2 p h3
    · rw [setEntry_cons_ne d doc v s tl hd2] at hp
      rcases List.mem_cons.mp hp with h3 | h3
      · subst h3
        exact h1 (d, v) (List.mem_cons_self _ _)
      · exact ih (fun q hq => h1 q (List.mem_cons_of_mem _ hq)) h2 p h3

theorem wf_joinDoc (reg : Registry) (d u : String) :
    RegistryWF reg → RegistryWF (joinDoc reg d u) := by
  intro h
  cases hg : getDoc reg d with
  | none =>
    have hkeys := (getDoc_eq_none reg d).mp hg
    simp only [joinDoc, hg]
    refine ⟨?_, ?_⟩
    · rw [List.map_append]
      apply List.Nodup.append h.1 (by simp)
      intro a ha hb
      simp only [List.map_cons, List.map_nil, List.mem_singleton] at hb
      subst hb
      obtain ⟨p, hp, hfst⟩ := List.mem_map.mp ha
      exact hkeys p hp hfst
    · intro p hp
      rcases List.mem_append.mp hp with h2 | h2
      · exact h.2 p h2
      · simp only [List.mem_singleton] at h2
        subst h2
        simp
  | some s =>
    simp only [joinDoc, hg]
    refine ⟨?_, ?_⟩
    · rw [keys_setEntry]
      exact h.1
    · exact forall_mem_setEntry reg d (setAdd s u) _ h.2 (setAdd_ne_nil s u)

theorem wf_leaveDoc (reg : Registry) (d u : String) :
    RegistryWF reg → RegistryWF (leaveDoc reg d u) := by
  intro h
  cases hg : getDoc reg d with
  | none => simpa [leaveDoc, hg] using h
  | some s =>
    simp only [leaveDoc, hg]
    by_cases he : (s.erase u).isEmpty
    · rw [if_pos he]
      refine ⟨?_, ?_⟩
      · simp only [removeEntry]
        exact ((List.filter_sublist _).map Prod.fst).nodup h.1
      · intro p hp
        exact h.2 p (List.mem_of_mem_filter hp)
    · rw [if_neg he]
      apply And.intro
      · rw [keys_setEntry]
        exact h.1
      · exact forall_mem_setEntry reg d (s.erase u) _ h.2
          (by
            intro hnil
            have hnil2 : s.erase u = [] := hnil
            rw [hnil2] at he
            simp at he)

theorem leaveDoc_not_member (reg : Registry) (d u : String) :
    RegistryWF reg → (∀ s, getDoc reg d = some s → u ∉ s) →
    leaveDoc reg d u = reg := by
  intro hwf hmem
  cases hg : getDoc reg d with
  | none => simp [leaveDoc, hg]
  | some s =>
    have hu : u ∉ s := hmem s hg
    have hne : s ≠ [] := hwf.2 (d, s) (getDoc_mem reg d s hg)
    simp only [leaveDoc, hg]
    rw [List.erase_of_not_mem hu]
    rw [if_neg (by simpa using hne)]
    exact setEntry_getDoc_self reg d s hwf.1 hg

theorem leaveDoc_last_member (reg : Registry) (d u : String) :
    getDoc reg d = some [u] → getDoc (leaveDoc reg d u) d = none := by
  intro h
  simp only [leaveDoc, h, List.erase_cons_head, List.isEmpty_nil, if_true]
  exact getDoc_removeEntry reg d

/-- C7: the presence-map invariant — every tracked document maps to a
non-empty member set (and the map has well-formed unique keys) — is
preserved by every gateway event (join, leave, operation relay, cursor
relay, disconnect); the set is created lazily on first join; the key is
deleted when the last member leaves; and a leave by a non-member is a
no-op. -/
theorem presence_invariant_preserved :
    (∀ (reg : Registry) (ev : GatewayEvent),
      RegistryWF reg → RegistryWF (gatewayStep reg ev)) ∧
    (∀ (reg : Registry) (d u : String), RegistryWF reg →
      (∀ s, getDoc reg d = some s → u ∉ s) →
      gatewayStep reg (GatewayEvent.leaveDocument d u) = reg) ∧
    (∀ (reg : Registry) (d u : String), getDoc reg d = none →
      getDoc (gatewayStep reg (GatewayEvent.joinDocument d u)) d
        = some [u]) ∧
    (∀ (reg : Registry) (d u : String), getDoc reg d = some [u] →
      getDoc (gatewayStep reg (GatewayEvent.leaveDocument d u)) d
        = none) := by
  refine ⟨?_, ?_, ?_, ?_⟩
  · intro reg ev h
    cases ev with
    | joinDocument d u => exact wf_joinDoc reg d u h
    | documentOperation op => exact h
    | cursorPosition d u p => exact h
    | leaveDocument d u => exact wf_leaveDoc reg d u h
    | disconnect => exact h
  · intro reg d u h hmem
    exact leaveDoc_not_member reg d u h hmem
  · intro reg d u h
    exact getDoc_joinDoc_of_none reg d u h
  · intro reg d u h
    exact leaveDoc_last_member reg d u h

/-- Witness for C7 on concrete registries: invariant preservation on a
join, no-op leave by a non-member, lazy creation, and key deletion when
the last member leaves. -/
theorem presence_invariant_preserved_witness :
    RegistryWF (gatewayStep [("doc1", ["user1"])]
      (GatewayEvent.joinDocument "doc1" "user2")) ∧
    gatewayStep [("doc1", ["user1"])]
      (GatewayEvent.leaveDocument "doc1" "ghost") = [("doc1", ["user1"])] ∧
    getDoc (gatewayStep [] (GatewayEvent.joinDocument "doc1" "user1"))
      "doc1" = some ["user1"] ∧
    getDoc (gatewayStep [("doc1", ["user1"])]
      (GatewayEvent.leaveDocument "doc1" "user1")) "doc1" = none :=
  ⟨presence_invariant_preserved.1 [("doc1", ["user1"])]
      (GatewayEvent.joinDocument "doc1" "user2") (by decide),
    presence_invariant_preserved.2.1 [("doc1", ["user1"])] "doc1" "ghost"
      (by decide)
      (by
        intro s hs
        have hg : getDoc [("doc1", ["user1"])] "doc1" = some ["user1"] := by
          decide
        rw [hg] at hs
        injection hs with h2
        subst h2
        decide),
    presence_invariant_preserved.2.2.1 [] "doc1" "user1" rfl,
    presence_invariant_preserved.2.2.2 [("doc1", ["user1"])] "doc1" "user1"
      (by decide)⟩

/-- C8: the `disconnect` handler performs no presence cleanup — after
`user1` joins `doc1` and the connection disconnects without an explicit
leave, the registry still lists `user1` as a member of `doc1`.  The
spec's §4.2/§9 mark this missing cleanup as a defect of the reference
behavior. -/
theorem disconnect_leaks_presence :
    gatewayStep (gatewayStep [] (GatewayEvent.joinDocument "doc1" "user1"))
        GatewayEvent.disconnect = [("doc1", ["user1"])] ∧
    membersList
        (gatewayStep (gatewayStep []
          (GatewayEvent.joinDocument "doc1" "user1"))
          GatewayEvent.disconnect) "doc1" = ["user1"] :=
  ⟨by decide, by decide⟩

/-! ### Client session store theorems -/

/-- C9 (counterexample): a remote delete operation from another user is
claimed to be applied to the local buffer through the Edit Applier
(§4.4), but the client's `applyOperation` ignores it entirely: the
buffer stays `"hello"` while the §4.4 applier would produce `"llo"`. -/
theorem client_ignores_remote_delete :
    delOpRemote.userId ≠ "me" ∧
    delOpRemote.type = OpType.delete ∧
    clientApplyOperation (some "me") "hello".toList delOpRemote
      = "hello".toList ∧
    applyOperation "hello".toList delOpRemote
      = Except.ok "llo".toList ∧
    "hello".toList ≠ "llo".toList :=
  ⟨by decide, rfl, by decide, by rfl, by decide⟩

/-- C9 (amended): the client session store discards operations whose
originUser equals the local user; for any other operation, an Insert with
non-empty text replaces the whole local buffer by the operation's text,
and every other operation (any Delete, or an empty Insert) leaves the
buffer unchanged — the §4.4 Edit Applier is not invoked. -/
theorem clientApplyOperation_spec_amended (uid : String)
    (buffer : List Char) (operation : TextOperation) :
    (operation.userId = uid →
      clientApplyOperation (some uid) buffer operation = buffer) ∧
    (operation.userId ≠ uid → operation.type = OpType.insert →
      operation.text ≠ [] →
      clientApplyOperation (some uid) buffer operation = operation.text) ∧
    (operation.userId ≠ uid →
      (operation.type = OpType.delete ∨ operation.text = []) →
      clientApplyOperation (some uid) buffer operation = buffer) := by
  refine ⟨?_, ?_, ?_⟩
  · intro h
    simp [clientApplyOperation, h]
  · intro h hk htext
    simp only [clientApplyOperation]
    rw [if_neg (show ¬ (some uid = some operation.userId) by
      simp only [Option.some.injEq]
      exact fun he => h he.symm)]
    rw [if_pos ⟨hk, htext⟩]
  · intro h hcase
    simp only [clientApplyOperation]
    rw [if_neg (show ¬ (some uid = some operation.userId) by
      simp only [Option.some.injEq]
      exact fun he => h he.symm)]
    rw [if_neg (show ¬ (operation.type = OpType.insert ∧
        operation.text ≠ []) by
      rcases hcase with hc | hc
      · simp [hc]
      · simp [hc])]

/-- Witness for C9's amended claim: the local user's own operation is
discarded, and a remote delete leaves the buffer unchanged. -/
theorem clientApplyOperation_spec_amended_witness :
    clientApplyOperation (some "other") "hello".toList delOpRemote
      = "hello".toList ∧
    clientApplyOperation (some "me") "hello".toList delOpRemote
      = "hello".toList :=
  ⟨(clientApplyOperation_spec_amended "other" "hello".toList delOpRemote).1
      rfl,
    (clientApplyOperation_spec_amended "me" "hello".toList delOpRemote).2.2
      (by decide) (Or.inl rfl)⟩

end ColabTool
